import Mathlib

/-!
Verification development for the dircmp tool (src/main.rs).

The program records a directory tree as a map from relative paths to content
digests, persists it, and later compares a live directory against the record,
classifying every path as only-in-directory, only-in-record, differing, or
unchanged.

Modelling conventions:
* Strings (file names, digest strings) are lists of characters; paths are
  lists of components, compared component-wise exactly as Rust compares
  `PathBuf` values.
* The filesystem is an inductive tree.  A directory's entry list (the
  sequence produced by `fs::read_dir`) is inlined into the constructors
  `dirNil` / `dirCons`.  The constructors `fileErr` and `dirErr` stand for
  nodes whose `fs::read` respectively `fs::read_dir` fails with an I/O
  error, and `missing` stands for a non-existent root.
* `BTreeMap<PathBuf, String>` is modelled as an association list kept sorted
  by an ordered insert, mirroring the B-tree's sorted iteration order.
* The `HashSet` difference iteration at the end of `compare` has no
  guaranteed order; the model takes the iteration order as a parameter
  `iter`, constrained in theorems to be a permutation.
-/

namespace Dircmp

/-- A file or directory name: the character list of one path component. -/
abbrev FName := List Char

/-- A relative path: the list of its components, as Rust's `PathBuf`
comparisons see it. -/
abbrev FsPath := List (List Char)

/-- A content digest rendered as a string, as produced by `hash_file`. -/
abbrev Digest := List Char

/-- File content: a list of byte values. -/
abbrev Bytes := List Nat

/-- The in-memory record: `BTreeMap<PathBuf, String>` as a sorted
association list. -/
abbrev RecMap := List (FsPath × Digest)

/-- The single I/O error value; the Rust code never inspects the error, it
only propagates it with the question-mark operator. -/
inductive IoErr where
  | ioErr
deriving DecidableEq

/-- Rust string ordering on one component: byte-lexicographic, which for
`List Char` is codepoint-lexicographic. -/
def strLt : List Char → List Char → Bool
  | _, [] => false
  | [], _ :: _ => true
  | a :: as, b :: bs =>
    if a.toNat < b.toNat then true
    else if b.toNat < a.toNat then false
    else strLt as bs

/-- Rust `PathBuf` ordering: lexicographic over the component lists. -/
def pathLt : FsPath → FsPath → Bool
  | _, [] => false
  | [], _ :: _ => true
  | a :: as, b :: bs =>
    if strLt a b then true
    else if strLt b a then false
    else pathLt as bs

/-- `BTreeMap::get`: the digest stored under a key, if any. -/
def lookupRec (m : RecMap) (k : FsPath) : Option Digest :=
  match m with
  | [] => none
  | e :: rest => if e.1 = k then some e.2 else lookupRec rest k

/-- `BTreeMap::insert`: ordered insert, replacing an equal key. -/
def insertRec (k : FsPath) (v : Digest) (m : RecMap) : RecMap :=
  match m with
  | [] => [(k, v)]
  | e :: rest =>
    if pathLt k e.1 then (k, v) :: e :: rest
    else if e.1 = k then (k, v) :: rest
    else e :: insertRec k v rest

/-- `BTreeMap::keys`, in stored (sorted) order. -/
def keysRec (m : RecMap) : List FsPath := m.map (fun e => e.1)

/-- One hexadecimal digit character. -/
def hexDigitChar (n : Nat) : Char :=
  match n with
  | 0 => '0' | 1 => '1' | 2 => '2' | 3 => '3'
  | 4 => '4' | 5 => '5' | 6 => '6' | 7 => '7'
  | 8 => '8' | 9 => '9' | 10 => 'a' | 11 => 'b'
  | 12 => 'c' | 13 => 'd' | 14 => 'e' | 15 => 'f'
  | _ => '0'

/-- Hexadecimal rendering of a number, fixed width, most significant digit
first. -/
def natToHex : Nat → Nat → List Char
  | 0, _ => []
  | w + 1, n => natToHex w (n / 16) ++ [hexDigitChar (n % 16)]

/-- Modelled from the spec: `hash_file` wraps
`crypto_hash::hex_digest(Algorithm::SHA256, bytes)`, an external crate the
spec treats as an opaque, deterministic, pure content-digest function
producing a fixed-length hexadecimal string.  It is modelled by a concrete
deterministic 64-hex-digit digest; no claim depends on collision
resistance. -/
def hashFile (bytes : Bytes) : Digest :=
  natToHex 64 (bytes.foldl (fun a b => (a * 131 + b + 17) % (2 ^ 64)) 7)

/-- A filesystem node.  `dirNil`/`dirCons` spell out a directory's entry
list in `fs::read_dir` enumeration order. -/
inductive Fs where
  | file (content : Bytes)
  | fileErr
  | missing
  | dirErr
  | dirNil
  | dirCons (name : FName) (child : Fs) (rest : Fs)
deriving DecidableEq

/-- `Path::is_dir`: true exactly on directory nodes. -/
def isDir : Fs → Bool
  | .dirNil => true
  | .dirCons _ _ _ => true
  | .dirErr => true
  | _ => false

/-- `fs::read` on a node: the bytes of a readable file, an I/O error
otherwise. -/
def readFile : Fs → Except IoErr Bytes
  | .file b => .ok b
  | _ => .error IoErr.ioErr

/-- Bytes of a readable file, junk default otherwise. -/
def fileBytes : Fs → Bytes
  | .file b => b
  | _ => []

/-- The entry names of a directory listing. -/
def listingNames : Fs → List FName
  | .dirCons n _ rest => n :: listingNames rest
  | _ => []

/-- The traversal: every regular file reachable from a node, with its
relative path, in enumeration order.  Matches the shared walk structure of
`record_hashes` and `compare_hashes`. -/
def walk : Fs → FsPath → List (FsPath × Bytes)
  | .dirCons n c rest, pre =>
    (if isDir c then walk c (pre ++ [n]) else [(pre ++ [n], fileBytes c)]) ++ walk rest pre
  | _, _ => []

/-- No I/O-failing node anywhere in the tree. -/
def ErrFree : Fs → Bool
  | .file _ => true
  | .dirNil => true
  | .dirCons _ c rest => ErrFree c && ErrFree rest
  | _ => false

/-- Every directory listing has pairwise distinct entry names, as real
directories do. -/
def nodupNames : Fs → Bool
  | .dirCons n c rest => decide (n ∉ listingNames rest) && nodupNames c && nodupNames rest
  | _ => true

/-- A wellformed file name: nonempty, no separator, ASCII. -/
def wfName (n : FName) : Bool :=
  decide (n ≠ []) && n.all (fun c => decide (c ≠ '/') && decide (c.toNat < 128))

/-- Every entry name in the tree is wellformed. -/
def wfNames : Fs → Bool
  | .dirCons n c rest => wfName n && wfNames c && wfNames rest
  | _ => true

/-- A node that can stand as the tail of a directory listing. -/
def isListing : Fs → Bool
  | .dirNil => true
  | .dirCons _ _ _ => true
  | _ => false

/-- The listing tails of the inlined entry-list encoding are themselves
listings. -/
def validFs : Fs → Bool
  | .dirCons _ c rest => validFs c && validFs rest && isListing rest
  | _ => true

/-- `record_hashes(dir, root_path, hashes)`: walk the tree, hash every
regular file, insert it under its path relative to the root; propagate any
I/O error.  The accumulated prefix `pre` plays the role of the path
relative to `root_path`. -/
def recordHashes : Fs → FsPath → RecMap → Except IoErr RecMap
  | .dirErr, _, _ => .error IoErr.ioErr
  | .dirNil, _, acc => .ok acc
  | .dirCons n c rest, pre, acc =>
    if isDir c then
      match recordHashes c (pre ++ [n]) acc with
      | .error e => .error e
      | .ok acc1 => recordHashes rest pre acc1
    else
      match readFile c with
      | .error e => .error e
      | .ok bytes => recordHashes rest pre (insertRec (pre ++ [n]) (hashFile bytes) acc)
  | _, _, acc => .ok acc

/-- A classification line printed by `compare`: `[dir]`, `[rec]` or
`[dif]`. -/
inductive Emission where
  | onlyInDir (p : FsPath)
  | onlyInRec (p : FsPath)
  | differs (p : FsPath)
deriving DecidableEq

/-- The path an emission is about. -/
def emPath : Emission → FsPath
  | .onlyInDir p => p
  | .onlyInRec p => p
  | .differs p => p

/-- `HashSet::insert` on the hit set, modelled by membership. -/
def insertHit (p : FsPath) (hits : List FsPath) : List FsPath :=
  if p ∈ hits then hits else p :: hits

/-- `compare_hashes(dir, root_path, hashes, hits)`: walk the live tree; a
file missing from the record emits only-in-directory, a present file is
read, hashed and emits differs on digest mismatch; every visited file is
added to the hit set; I/O errors propagate. -/
def compareHashes : Fs → FsPath → RecMap → List FsPath → Except IoErr (List FsPath × List Emission)
  | .dirErr, _, _, _ => .error IoErr.ioErr
  | .dirNil, _, _, hits => .ok (hits, [])
  | .dirCons n c rest, pre, m, hits =>
    if isDir c then
      match compareHashes c (pre ++ [n]) m hits with
      | .error e => .error e
      | .ok (h1, e1) =>
        match compareHashes rest pre m h1 with
        | .error e => .error e
        | .ok (h2, e2) => .ok (h2, e1 ++ e2)
    else
      match lookupRec m (pre ++ [n]) with
      | some hv =>
        match readFile c with
        | .error e => .error e
        | .ok bytes =>
          match compareHashes rest pre m (insertHit (pre ++ [n]) hits) with
          | .error e => .error e
          | .ok (h2, e2) =>
            .ok (h2, (if hv = hashFile bytes then [] else [Emission.differs (pre ++ [n])]) ++ e2)
      | none =>
        match compareHashes rest pre m (insertHit (pre ++ [n]) hits) with
        | .error e => .error e
        | .ok (h2, e2) => .ok (h2, Emission.onlyInDir (pre ++ [n]) :: e2)
  | _, _, _, hits => .ok (hits, [])

/-- The relative paths of the live walk. -/
def livePaths (fs : Fs) : List FsPath := (walk fs []).map (fun e => e.1)

/-- The `compare` operation after the record is loaded: run the traversal,
then emit one only-in-record line for every record key never hit, in the
`HashSet` difference iteration order `iter`. -/
def compareCore (iter : List FsPath → List FsPath) (fs : Fs) (m : RecMap) :
    Except IoErr (List Emission) :=
  match compareHashes fs [] m [] with
  | .error e => .error e
  | .ok (hits, ems) =>
    .ok (ems ++ (iter ((keysRec m).filter (fun k => decide (k ∉ hits)))).map Emission.onlyInRec)

/-- Specification view of the traversal emissions: what `compare_hashes`
prints, file by file, in walk order. -/
def travEmits (files : List (FsPath × Bytes)) (m : RecMap) : List Emission :=
  files.filterMap (fun pb =>
    match lookupRec m pb.1 with
    | none => some (Emission.onlyInDir pb.1)
    | some hv => if hv = hashFile pb.2 then none else some (Emission.differs pb.1))

/-- The identity iteration order: one possible hash-set iteration. -/
def idIter : List FsPath → List FsPath := fun l => l

/-- The reversed iteration order: another possible hash-set iteration. -/
def revIter : List FsPath → List FsPath := fun l => l.reverse

/-- The record map is strictly sorted by path, as a B-tree map is. -/
abbrev SortedRec (m : RecMap) : Prop :=
  List.Pairwise (fun a b => pathLt a.1 b.1 = true) m

/-- Fold a list of entries into a map by ordered insertion. -/
def insertAll (acc : RecMap) (l : List (FsPath × Digest)) : RecMap :=
  l.foldl (fun a e => insertRec e.1 e.2 a) acc

/-- The entries a walk contributes to the record. -/
def entriesOf (files : List (FsPath × Bytes)) : List (FsPath × Digest) :=
  files.map (fun pb => (pb.1, hashFile pb.2))

theorem char_toNat_inj {a b : Char} (h : a.toNat = b.toNat) : a = b := by
  have ha := Char.ofNat_toNat a
  rw [h, Char.ofNat_toNat] at ha
  exact ha.symm

theorem strLt_irrefl (s : List Char) : strLt s s = false := by
  induction s with
  | nil => rfl
  | cons a as ih => simp [strLt, ih]

theorem strLt_asymm {a b : List Char} (h : strLt a b = true) : strLt b a = false := by
  induction a generalizing b with
  | nil =>
    cases b with
    | nil => simpa [strLt] using h
    | cons y ys => simp [strLt]
  | cons x xs ih =>
    cases b with
    | nil => simp [strLt] at h
    | cons y ys =>
      simp only [strLt] at h ⊢
      rcases Nat.lt_trichotomy x.toNat y.toNat with hlt | heq | hgt
      · simp [hlt, Nat.lt_asymm hlt, Nat.not_lt.mpr (Nat.le_of_lt hlt)]
      · simp only [heq, Nat.lt_irrefl, if_false] at h ⊢
        exact ih (by simpa using h)
      · simp [hgt, Nat.lt_asymm hgt, Nat.not_lt.mpr (Nat.le_of_lt hgt)] at h

theorem strLt_total_eq {a b : List Char} (h1 : strLt a b = false) (h2 : strLt b a = false) :
    a = b := by
  induction a generalizing b with
  | nil =>
    cases b with
    | nil => rfl
    | cons y ys => simp [strLt] at h1
  | cons x xs ih =>
    cases b with
    | nil => simp [strLt] at h2
    | cons y ys =>
      simp only [strLt] at h1 h2
      rcases Nat.lt_trichotomy x.toNat y.toNat with hlt | heq | hgt
      · simp [hlt] at h1
      · simp only [heq, Nat.lt_irrefl, if_false] at h1 h2
        have hx : x = y := char_toNat_inj heq
        have : xs = ys := ih (by simpa using h1) (by simpa using h2)
        rw [hx, this]
      · simp [hgt] at h2

theorem strLt_trans {a b c : List Char} (h1 : strLt a b = true) (h2 : strLt b c = true) :
    strLt a c = true := by
  induction a generalizing b c with
  | nil =>
    cases c with
    | nil =>
      cases b with
      | nil => simpa [strLt] using h1
      | cons y ys => simp [strLt] at h2
    | cons z zs => simp [strLt]
  | cons x xs ih =>
    cases b with
    | nil => simp [strLt] at h1
    | cons y ys =>
      cases c with
      | nil => simp [strLt] at h2
      | cons z zs =>
        simp only [strLt] at h1 h2 ⊢
        rcases Nat.lt_trichotomy x.toNat y.toNat with hxy | hxy | hxy
        · rcases Nat.lt_trichotomy y.toNat z.toNat with hyz | hyz | hyz
          · simp [Nat.lt_trans hxy hyz]
          · simp [hyz ▸ hxy]
          · simp [hyz, Nat.lt_asymm hyz] at h2
        · rcases Nat.lt_trichotomy y.toNat z.toNat with hyz | hyz | hyz
          · simp [hxy ▸ hyz]
          · have hxz : x.toNat = z.toNat := hxy.trans hyz
            simp only [hxy, Nat.lt_irrefl, if_false] at h1
            simp only [hyz, Nat.lt_irrefl, if_false] at h2
            simp only [hxz, Nat.lt_irrefl, if_false]
            exact ih (by simpa using h1) (by simpa using h2)
          · simp [hyz, Nat.lt_asymm hyz] at h2
        · simp [hxy, Nat.lt_asymm hxy] at h1

theorem pathLt_irrefl (p : FsPath) : pathLt p p = false := by
  induction p with
  | nil => rfl
  | cons a as ih => simp [pathLt, strLt_irrefl, ih]

theorem pathLt_asymm {a b : FsPath} (h : pathLt a b = true) : pathLt b a = false := by
  induction a generalizing b with
  | nil =>
    cases b with
    | nil => simpa [pathLt] using h
    | cons y ys => simp [pathLt]
  | cons x xs ih =>
    cases b with
    | nil => simp [pathLt] at h
    | cons y ys =>
      simp only [pathLt] at h ⊢
      by_cases hxy : strLt x y = true
      · simp [hxy, strLt_asymm hxy]
      · have hxy' : strLt x y = false := by simpa using hxy
        by_cases hyx : strLt y x = true
        · simp [hxy', hyx] at h
        · have hyx' : strLt y x = false := by simpa using hyx
          simp only [hxy', hyx', if_false] at h ⊢
          exact ih (by simpa using h)

theorem pathLt_total_eq {a b : FsPath} (h1 : pathLt a b = false) (h2 : pathLt b a = false) :
    a = b := by
  induction a generalizing b with
  | nil =>
    cases b with
    | nil => rfl
    | cons y ys => simp [pathLt] at h1
  | cons x xs ih =>
    cases b with
    | nil => simp [pathLt] at h2
    | cons y ys =>
      simp only [pathLt] at h1 h2
      by_cases hxy : strLt x y = true
      · simp [hxy] at h1
      · by_cases hyx : strLt y x = true
        · simp [hyx, hxy] at h2
        · have hxy' : strLt x y = false := by simpa using hxy
          have hyx' : strLt y x = false := by simpa using hyx
          have hx : x = y := strLt_total_eq hxy' hyx'
          simp only [hxy', hyx', if_false] at h1 h2
          have : xs = ys := ih (by simpa using h1) (by simpa using h2)
          rw [hx, this]

theorem pathLt_trans {a b c : FsPath} (h1 : pathLt a b = true) (h2 : pathLt b c = true) :
    pathLt a c = true := by
  induction a generalizing b c with
  | nil =>
    cases c with
    | nil =>
      cases b with
      | nil => simpa [pathLt] using h1
      | cons y ys => simp [pathLt] at h2
    | cons z zs => simp [pathLt]
  | cons x xs ih =>
    cases b with
    | nil => simp [pathLt] at h1
    | cons y ys =>
      cases c with
      | nil => simp [pathLt] at h2
      | cons z zs =>
        simp only [pathLt] at h1 h2 ⊢
        by_cases hxy : strLt x y = true
        · by_cases hyz : strLt y z = true
          · simp [strLt_trans hxy hyz]
          · have hyz' : strLt y z = false := by simpa using hyz
            by_cases hzy : strLt z y = true
            · simp [hyz', hzy] at h2
            · have hzy' : strLt z y = false := by simpa using hzy
              have : y = z := strLt_total_eq hyz' hzy'
              simp [← this, hxy]
        · have hxy' : strLt x y = false := by simpa using hxy
          by_cases hyx : strLt y x = true
          · simp [hxy', hyx] at h1
          · have hyx' : strLt y x = false := by simpa using hyx
            have hxyeq : x = y := strLt_total_eq hxy' hyx'
            subst hxyeq
            simp only [hxy', if_false] at h1 ⊢
            by_cases hxz : strLt x z = true
            · simp [hxz]
            · have hxz' : strLt x z = false := by simpa using hxz
              by_cases hzx : strLt z x = true
              · simp [hxz', hzx] at h2
              · have hzx' : strLt z x = false := by simpa using hzx
                simp only [hxz', hzx', if_false] at h2 ⊢
                exact ih (by simpa using h1) (by simpa using h2)

theorem insertRec_cons_lt {k : FsPath} {v : Digest} {e : FsPath × Digest} {rest : RecMap}
    (h : pathLt k e.1 = true) : insertRec k v (e :: rest) = (k, v) :: e :: rest := by
  simp [insertRec, h]

theorem insertRec_cons_eq {k : FsPath} {v : Digest} {e : FsPath × Digest} {rest : RecMap}
    (h1 : pathLt k e.1 = false) (h2 : e.1 = k) : insertRec k v (e :: rest) = (k, v) :: rest := by
  simp only [insertRec]
  rw [h1]
  simp [h2]

theorem insertRec_cons_gt {k : FsPath} {v : Digest} {e : FsPath × Digest} {rest : RecMap}
    (h1 : pathLt k e.1 = false) (h2 : e.1 ≠ k) :
    insertRec k v (e :: rest) = e :: insertRec k v rest := by
  simp [insertRec, h1, h2]

theorem lookupRec_cons (e : FsPath × Digest) (rest : RecMap) (q : FsPath) :
    lookupRec (e :: rest) q = if e.1 = q then some e.2 else lookupRec rest q := rfl

theorem lookupRec_insertRec (k : FsPath) (v : Digest) (m : RecMap) (q : FsPath) :
    lookupRec (insertRec k v m) q = if q = k then some v else lookupRec m q := by
  induction m with
  | nil =>
    by_cases h : q = k
    · subst h; simp [insertRec, lookupRec]
    · simp [insertRec, lookupRec, h, Ne.symm h]
  | cons e rest ih =>
    by_cases hlt : pathLt k e.1 = true
    · rw [insertRec_cons_lt hlt, lookupRec_cons]
      by_cases h : q = k
      · subst h; simp
      · simp [Ne.symm h, h, lookupRec_cons]
    · have hlt' : pathLt k e.1 = false := by simpa using hlt
      by_cases heq : e.1 = k
      · rw [insertRec_cons_eq hlt' heq, lookupRec_cons, lookupRec_cons]
        by_cases h : q = k
        · subst h; simp
        · have hne : e.1 ≠ q := by rw [heq]; exact Ne.symm h
          simp [Ne.symm h, h, hne]
      · rw [insertRec_cons_gt hlt' heq, lookupRec_cons, lookupRec_cons]
        by_cases h : q = k
        · subst h
          have hne : e.1 ≠ q := heq
          simp [hne, ih]
        · simp [ih, h]

theorem mem_keys_insertRec {k : FsPath} {v : Digest} {m : RecMap} {q : FsPath} :
    q ∈ keysRec (insertRec k v m) ↔ q = k ∨ q ∈ keysRec m := by
  induction m with
  | nil => simp [insertRec, keysRec]
  | cons e rest ih =>
    by_cases hlt : pathLt k e.1 = true
    · rw [insertRec_cons_lt hlt]
      simp only [keysRec, List.map_cons, List.mem_cons]
    · have hlt' : pathLt k e.1 = false := by simpa using hlt
      by_cases heq : e.1 = k
      · rw [insertRec_cons_eq hlt' heq]
        simp only [keysRec, List.map_cons, List.mem_cons, heq]
        tauto
      · rw [insertRec_cons_gt hlt' heq]
        simp only [keysRec, List.map_cons, List.mem_cons] at ih ⊢
        constructor
        · rintro (h | h)
          · exact Or.inr (Or.inl h)
          · rcases ih.mp h with h' | h'
            · exact Or.inl h'
            · exact Or.inr (Or.inr h')
        · rintro (h | h | h)
          · exact Or.inr (ih.mpr (Or.inl h))
          · exact Or.inl h
          · exact Or.inr (ih.mpr (Or.inr h))

theorem mem_insertRec {k : FsPath} {v : Digest} {m : RecMap} {e : FsPath × Digest}
    (h : e ∈ insertRec k v m) : e = (k, v) ∨ e ∈ m := by
  induction m with
  | nil => simpa [insertRec] using h
  | cons e0 rest ih =>
    by_cases hlt : pathLt k e0.1 = true
    · rw [insertRec_cons_lt hlt] at h
      rcases List.mem_cons.mp h with h1 | h1
      · exact Or.inl h1
      · exact Or.inr h1
    · have hlt' : pathLt k e0.1 = false := by simpa using hlt
      by_cases heq : e0.1 = k
      · rw [insertRec_cons_eq hlt' heq] at h
        rcases List.mem_cons.mp h with h1 | h1
        · exact Or.inl h1
        · exact Or.inr (List.mem_cons_of_mem _ h1)
      · rw [insertRec_cons_gt hlt' heq] at h
        rcases List.mem_cons.mp h with h1 | h1
        · exact Or.inr (h1 ▸ List.mem_cons_self e0 rest)
        · rcases ih h1 with h2 | h2
          · exact Or.inl h2
          · exact Or.inr (List.mem_cons_of_mem _ h2)

theorem sorted_insertRec {k : FsPath} {v : Digest} {m : RecMap} (h : SortedRec m) :
    SortedRec (insertRec k v m) := by
  induction m with
  | nil => simp [insertRec, SortedRec]
  | cons e rest ih =>
    rcases List.pairwise_cons.mp h with ⟨hall, hrest⟩
    by_cases hlt : pathLt k e.1 = true
    · rw [insertRec_cons_lt hlt]
      refine List.pairwise_cons.mpr ⟨?_, h⟩
      intro b hb
      rcases List.mem_cons.mp hb with hb | hb
      · rw [hb]; exact hlt
      · exact pathLt_trans hlt (hall b hb)
    · have hlt' : pathLt k e.1 = false := by simpa using hlt
      by_cases heq : e.1 = k
      · rw [insertRec_cons_eq hlt' heq]
        refine List.pairwise_cons.mpr ⟨?_, hrest⟩
        intro b hb
        exact heq ▸ hall b hb
      · have hek : pathLt e.1 k = true := by
          by_contra hc
          exact heq (pathLt_total_eq (by simpa using hc) hlt')
        rw [insertRec_cons_gt hlt' heq]
        refine List.pairwise_cons.mpr ⟨?_, ih hrest⟩
        intro b hb
        rcases mem_insertRec hb with h' | h'
        · rw [h']; exact hek
        · exact hall b h'

theorem insertRec_append_of_gt {k : FsPath} {v : Digest} {m : RecMap}
    (h : ∀ e ∈ m, pathLt e.1 k = true) : insertRec k v m = m ++ [(k, v)] := by
  induction m with
  | nil => simp [insertRec]
  | cons e rest ih =>
    have hek : pathLt e.1 k = true := h e (by simp)
    have hke : pathLt k e.1 = false := pathLt_asymm hek
    have hne : e.1 ≠ k := by
      intro hh
      rw [hh] at hek
      exact absurd hek (by simp [pathLt_irrefl])
    simp only [insertRec, hke, if_false, hne]
    rw [ih (fun e' he' => h e' (by simp [he']))]
    simp

theorem insertAll_cons (acc : RecMap) (e : FsPath × Digest) (l : List (FsPath × Digest)) :
    insertAll acc (e :: l) = insertAll (insertRec e.1 e.2 acc) l := rfl

theorem insertAll_sorted_eq {l : List (FsPath × Digest)} :
    ∀ {acc : RecMap}, SortedRec (acc ++ l) → insertAll acc l = acc ++ l := by
  induction l with
  | nil => intro acc _; simp [insertAll]
  | cons e rest ih =>
    intro acc h
    have hgt : ∀ a ∈ acc, pathLt a.1 e.1 = true := by
      intro a ha
      have := (List.pairwise_append.mp h).2.2 a ha e (by simp)
      exact this
    rw [insertAll_cons, insertRec_append_of_gt hgt, ih (by simpa using h)]
    simp

theorem sorted_insertAll {l : List (FsPath × Digest)} :
    ∀ {acc : RecMap}, SortedRec acc → SortedRec (insertAll acc l) := by
  induction l with
  | nil => intro acc h; simpa [insertAll] using h
  | cons e rest ih =>
    intro acc h
    rw [insertAll_cons]
    exact ih (sorted_insertRec h)

theorem mem_keys_insertAll {l : List (FsPath × Digest)} :
    ∀ {acc : RecMap} {q : FsPath},
      q ∈ keysRec (insertAll acc l) ↔ q ∈ l.map (fun e => e.1) ∨ q ∈ keysRec acc := by
  induction l with
  | nil => intro acc q; simp [insertAll]
  | cons e rest ih =>
    intro acc q
    rw [insertAll_cons, ih]
    simp [mem_keys_insertRec]
    tauto

theorem keysRec_cons (e : FsPath × Digest) (rest : RecMap) :
    keysRec (e :: rest) = e.1 :: keysRec rest := rfl

theorem lookupRec_eq_none {m : RecMap} {k : FsPath} :
    lookupRec m k = none ↔ k ∉ keysRec m := by
  induction m with
  | nil => simp [lookupRec, keysRec]
  | cons e rest ih =>
    rw [lookupRec_cons, keysRec_cons]
    by_cases h : e.1 = k
    · rw [if_pos h]
      constructor
      · intro hh; exact absurd hh (by simp)
      · intro hh; exact ((hh (h ▸ List.mem_cons_self e.1 (keysRec rest))).elim)
    · rw [if_neg h, ih]
      constructor
      · intro hh hmem
        rcases List.mem_cons.mp hmem with h1 | h1
        · exact h h1.symm
        · exact hh h1
      · intro hh h1
        exact hh (List.mem_cons_of_mem _ h1)

theorem lookupRec_insertAll {l : List (FsPath × Digest)}
    (hnd : (l.map (fun e => e.1)).Nodup) :
    ∀ {acc : RecMap} {q : FsPath},
      lookupRec (insertAll acc l) q =
        match l.find? (fun e => decide (e.1 = q)) with
        | some e => some e.2
        | none => lookupRec acc q := by
  induction l with
  | nil => intro acc q; simp [insertAll]
  | cons e rest ih =>
    intro acc q
    have hnd' : (rest.map (fun e => e.1)).Nodup := (List.nodup_cons.mp hnd).2
    have hne : e.1 ∉ rest.map (fun e => e.1) := (List.nodup_cons.mp hnd).1
    rw [insertAll_cons, ih hnd']
    by_cases h : e.1 = q
    · have hfr : rest.find? (fun e' => decide (e'.1 = q)) = none := by
        rw [List.find?_eq_none]
        intro x hx
        simp only [decide_eq_true_eq]
        intro hxq
        have hmem : x.1 ∈ rest.map (fun e' => e'.1) := List.mem_map_of_mem _ hx
        rw [hxq, ← h] at hmem
        exact hne hmem
      rw [hfr, List.find?_cons_of_pos _ (by simp [h])]
      rw [lookupRec_insertRec]
      simp [h]
    · rw [List.find?_cons_of_neg _ (by simp [h])]
      cases hopt : rest.find? (fun e' => decide (e'.1 = q)) with
      | none =>
        rw [lookupRec_insertRec]
        have hq : q ≠ e.1 := fun hh => h hh.symm
        simp [hq]
      | some e' => rfl

theorem travEmits_append (a b : List (FsPath × Bytes)) (m : RecMap) :
    travEmits (a ++ b) m = travEmits a m ++ travEmits b m := by
  simp [travEmits, List.filterMap_append]

theorem walk_extends (fs : Fs) :
    ∀ (pre p : FsPath), p ∈ (walk fs pre).map (fun e => e.1) →
      ∃ n s, p = pre ++ n :: s ∧ n ∈ listingNames fs := by
  induction fs with
  | dirCons n c rest ihc ihr =>
    intro pre p hp
    rw [walk, List.map_append, List.mem_append] at hp
    rcases hp with hp | hp
    · by_cases hd : isDir c = true
      · rw [if_pos hd] at hp
        rcases ihc (pre ++ [n]) p hp with ⟨n', s', heq, _⟩
        refine ⟨n, n' :: s', ?_, by simp [listingNames]⟩
        rw [heq]; simp
      · rw [if_neg hd] at hp
        simp only [List.map_cons, List.map_nil, List.mem_singleton] at hp
        exact ⟨n, [], hp, by simp [listingNames]⟩
    · rcases ihr pre p hp with ⟨n', s', heq, hn'⟩
      exact ⟨n', s', heq, by simp [listingNames, hn']⟩
  | file b => intro pre p hp; simp [walk] at hp
  | fileErr => intro pre p hp; simp [walk] at hp
  | missing => intro pre p hp; simp [walk] at hp
  | dirErr => intro pre p hp; simp [walk] at hp
  | dirNil => intro pre p hp; simp [walk] at hp

theorem walk_nodup (fs : Fs) :
    ∀ (pre : FsPath), nodupNames fs = true →
      ((walk fs pre).map (fun e => e.1)).Nodup := by
  induction fs with
  | dirCons n c rest ihc ihr =>
    intro pre hnd
    simp only [nodupNames, Bool.and_eq_true, decide_eq_true_eq] at hnd
    rcases hnd with ⟨⟨hn, hc⟩, hr⟩
    rw [walk, List.map_append]
    have hA : ∀ a ∈ ((if isDir c then walk c (pre ++ [n])
        else [(pre ++ [n], fileBytes c)]).map (fun e => e.1)), ∃ s, a = pre ++ n :: s := by
      intro a ha
      by_cases hd : isDir c = true
      · rw [if_pos hd] at ha
        rcases walk_extends c (pre ++ [n]) a ha with ⟨n', s', heq, _⟩
        exact ⟨n' :: s', by rw [heq]; simp⟩
      · rw [if_neg hd] at ha
        simp only [List.map_cons, List.map_nil, List.mem_singleton] at ha
        exact ⟨[], by rw [ha]⟩
    refine List.Nodup.append ?_ (ihr pre hr) ?_
    · by_cases hd : isDir c = true
      · rw [if_pos hd]; exact ihc (pre ++ [n]) hc
      · rw [if_neg hd]; simp
    · intro a haA haB
      rcases hA a haA with ⟨s, hs⟩
      rcases walk_extends rest pre a haB with ⟨n', s', heq, hn'⟩
      rw [hs] at heq
      have : n :: s = n' :: s' := List.append_cancel_left heq
      have hnn : n = n' := (List.cons.injEq _ _ _ _ ▸ this).1
      exact hn (hnn ▸ hn')
  | file b => intro pre _; simp [walk]
  | fileErr => intro pre _; simp [walk]
  | missing => intro pre _; simp [walk]
  | dirErr => intro pre _; simp [walk]
  | dirNil => intro pre _; simp [walk]

theorem insertAll_append (acc : RecMap) (l1 l2 : List (FsPath × Digest)) :
    insertAll acc (l1 ++ l2) = insertAll (insertAll acc l1) l2 := by
  simp [insertAll, List.foldl_append]

theorem entriesOf_append (a b : List (FsPath × Bytes)) :
    entriesOf (a ++ b) = entriesOf a ++ entriesOf b := by
  simp [entriesOf]

theorem compareHashes_ok (fs : Fs) :
    ∀ (pre : FsPath) (m : RecMap) (hits : List FsPath), ErrFree fs = true →
      ∃ hitsOut,
        compareHashes fs pre m hits = .ok (hitsOut, travEmits (walk fs pre) m) ∧
        ∀ p, p ∈ hitsOut ↔ p ∈ hits ∨ p ∈ (walk fs pre).map (fun e => e.1) := by
  induction fs with
  | dirCons n c rest ihc ihr =>
    intro pre m hits hErr
    simp only [ErrFree, Bool.and_eq_true] at hErr
    rcases hErr with ⟨hec, her⟩
    by_cases hd : isDir c = true
    · rcases ihc (pre ++ [n]) m hits hec with ⟨h1, hceq, hcmem⟩
      rcases ihr pre m h1 her with ⟨h2, hreq, hrmem⟩
      refine ⟨h2, ?_, ?_⟩
      · rw [compareHashes, if_pos hd]
        simp only [hceq, hreq]
        rw [walk, if_pos hd, travEmits_append]
      · intro p
        rw [hrmem p, hcmem p, walk, if_pos hd, List.map_append, List.mem_append]
        tauto
    · have hcfile : ∃ b, c = Fs.file b := by
        cases c with
        | file b => exact ⟨b, rfl⟩
        | fileErr => simp [ErrFree] at hec
        | missing => simp [ErrFree] at hec
        | dirErr => simp [isDir] at hd
        | dirNil => simp [isDir] at hd
        | dirCons n' c' rest' => simp [isDir] at hd
      rcases hcfile with ⟨b, rfl⟩
      rcases ihr pre m (insertHit (pre ++ [n]) hits) her with ⟨h2, hreq, hrmem⟩
      have hwalk : walk (Fs.dirCons n (Fs.file b) rest) pre =
          (pre ++ [n], b) :: walk rest pre := by
        rw [walk, if_neg hd]; rfl
      have hmemgoal : ∀ p, (p ∈ h2 ↔ p ∈ hits ∨
          p ∈ (walk (Fs.dirCons n (Fs.file b) rest) pre).map (fun e => e.1)) := by
        intro p
        rw [hrmem p, hwalk]
        simp only [insertHit, List.map_cons, List.mem_cons]
        by_cases hmem : (pre ++ [n]) ∈ hits
        · rw [if_pos hmem]
          constructor
          · intro h'; tauto
          · rintro (h' | h' | h')
            · exact Or.inl h'
            · exact Or.inl (h' ▸ hmem)
            · exact Or.inr h'
        · rw [if_neg hmem]
          simp only [List.mem_cons]
          tauto
      cases hlook : lookupRec m (pre ++ [n]) with
      | some hv =>
        refine ⟨h2, ?_, hmemgoal⟩
        rw [compareHashes, if_neg hd]
        simp only [hlook, readFile, hreq]
        rw [hwalk]
        simp only [travEmits, List.filterMap_cons, hlook]
        by_cases hveq : hv = hashFile b
        · simp [hveq]
        · simp [hveq]
      | none =>
        refine ⟨h2, ?_, hmemgoal⟩
        rw [compareHashes, if_neg hd]
        simp only [hlook, hreq]
        rw [hwalk]
        simp only [travEmits, List.filterMap_cons, hlook]
  | file b => intro pre m hits _; exact ⟨hits, rfl, by simp [walk]⟩
  | fileErr => intro pre m hits hErr; simp [ErrFree] at hErr
  | missing => intro pre m hits hErr; simp [ErrFree] at hErr
  | dirErr => intro pre m hits hErr; simp [ErrFree] at hErr
  | dirNil => intro pre m hits _; exact ⟨hits, rfl, by simp [walk]⟩

theorem recordHashes_ok (fs : Fs) :
    ∀ (pre : FsPath) (acc : RecMap), ErrFree fs = true →
      recordHashes fs pre acc = .ok (insertAll acc (entriesOf (walk fs pre))) := by
  induction fs with
  | dirCons n c rest ihc ihr =>
    intro pre acc hErr
    simp only [ErrFree, Bool.and_eq_true] at hErr
    rcases hErr with ⟨hec, her⟩
    by_cases hd : isDir c = true
    · rw [recordHashes, if_pos hd]
      simp only [ihc (pre ++ [n]) acc hec]
      rw [ihr pre _ her, walk, if_pos hd, entriesOf_append, insertAll_append]
    · have hcfile : ∃ b, c = Fs.file b := by
        cases c with
        | file b => exact ⟨b, rfl⟩
        | fileErr => simp [ErrFree] at hec
        | missing => simp [ErrFree] at hec
        | dirErr => simp [isDir] at hd
        | dirNil => simp [isDir] at hd
        | dirCons n' c' rest' => simp [isDir] at hd
      rcases hcfile with ⟨b, rfl⟩
      rw [recordHashes, if_neg hd]
      simp only [readFile]
      rw [ihr pre _ her]
      have hwalk : walk (Fs.dirCons n (Fs.file b) rest) pre =
          (pre ++ [n], b) :: walk rest pre := by
        rw [walk, if_neg hd]; rfl
      rw [hwalk]
      rfl
  | file b => intro pre acc _; simp [recordHashes, walk, entriesOf, insertAll]
  | fileErr => intro pre acc hErr; simp [ErrFree] at hErr
  | missing => intro pre acc hErr; simp [ErrFree] at hErr
  | dirErr => intro pre acc hErr; simp [ErrFree] at hErr
  | dirNil => intro pre acc _; simp [recordHashes, walk, entriesOf, insertAll]

theorem travEmits_cons (qb : FsPath × Bytes) (rest : List (FsPath × Bytes)) (m : RecMap) :
    travEmits (qb :: rest) m =
      (match lookupRec m qb.1 with
       | none => [Emission.onlyInDir qb.1]
       | some hv => if hv = hashFile qb.2 then [] else [Emission.differs qb.1]) ++
      travEmits rest m := by
  rw [travEmits, List.filterMap_cons]
  cases lookupRec m qb.1 with
  | none => rfl
  | some hv =>
    by_cases hveq : hv = hashFile qb.2
    · simp only [if_pos hveq]
      rfl
    · simp only [if_neg hveq]
      rfl

theorem mem_travEmits {files : List (FsPath × Bytes)} {m : RecMap} {e : Emission}
    (h : e ∈ travEmits files m) :
    emPath e ∈ files.map (fun x => x.1) ∧ ∀ p, e ≠ Emission.onlyInRec p := by
  induction files with
  | nil => cases h
  | cons qb rest ih =>
    rw [travEmits_cons, List.mem_append] at h
    rcases h with h | h
    · cases hlook : lookupRec m qb.1 with
      | none =>
        simp only [hlook] at h
        rcases List.mem_singleton.mp h with rfl
        exact ⟨by simp [emPath], by intro p hcon; cases hcon⟩
      | some hv =>
        simp only [hlook] at h
        by_cases hveq : hv = hashFile qb.2
        · rw [if_pos hveq] at h; cases h
        · rw [if_neg hveq] at h
          rcases List.mem_singleton.mp h with rfl
          exact ⟨by simp [emPath], by intro p hcon; cases hcon⟩
    · rcases ih h with ⟨h1, h2⟩
      exact ⟨by simp [h1], h2⟩

theorem travEmits_filter_nil {files : List (FsPath × Bytes)} {m : RecMap} {p : FsPath}
    (h : p ∉ files.map (fun x => x.1)) :
    (travEmits files m).filter (fun e => decide (emPath e = p)) = [] := by
  rw [List.filter_eq_nil_iff]
  intro e he
  simp only [decide_eq_true_eq]
  intro hp
  exact h (hp ▸ (mem_travEmits he).1)

theorem find?_key_of_nodup {α : Type} {l : List (FsPath × α)}
    (hnd : (l.map (fun x => x.1)).Nodup) {p : FsPath} {v : α} (hmem : (p, v) ∈ l) :
    l.find? (fun e => decide (e.1 = p)) = some (p, v) := by
  induction l with
  | nil => cases hmem
  | cons e rest ih =>
    rw [List.map_cons] at hnd
    rcases List.nodup_cons.mp hnd with ⟨hhead, htail⟩
    by_cases h : e.1 = p
    · rw [List.find?_cons_of_pos _ (by simp [h])]
      rcases List.mem_cons.mp hmem with h1 | h1
      · rw [h1]
      · have : e.1 ∈ rest.map (fun x => x.1) := by
          rw [h]
          exact List.mem_map_of_mem (fun x => x.1) h1
        exact absurd this hhead
    · rw [List.find?_cons_of_neg _ (by simp [h])]
      rcases List.mem_cons.mp hmem with h1 | h1
      · exact absurd (congrArg Prod.fst h1.symm) h
      · exact ih htail h1

theorem travEmits_filter_path {files : List (FsPath × Bytes)} {m : RecMap} {p : FsPath}
    (hnd : (files.map (fun x => x.1)).Nodup) :
    (travEmits files m).filter (fun e => decide (emPath e = p)) =
      match files.find? (fun pb => decide (pb.1 = p)) with
      | none => []
      | some pb =>
        match lookupRec m pb.1 with
        | none => [Emission.onlyInDir pb.1]
        | some hv => if hv = hashFile pb.2 then [] else [Emission.differs pb.1] := by
  induction files with
  | nil => rfl
  | cons qb rest ih =>
    rw [List.map_cons] at hnd
    rcases List.nodup_cons.mp hnd with ⟨hhead, htail⟩
    have hrest := ih htail
    rw [travEmits_cons, List.filter_append]
    by_cases hq : qb.1 = p
    · rw [List.find?_cons_of_pos _ (by simp [hq])]
      have hrestnil : (travEmits rest m).filter (fun e => decide (emPath e = p)) = [] :=
        travEmits_filter_nil (hq ▸ hhead)
      rw [hrestnil]
      cases hlook : lookupRec m qb.1 with
      | none =>
        simp only [hlook]
        simp [emPath, hq]
      | some hv =>
        simp only [hlook]
        by_cases hveq : hv = hashFile qb.2
        · rw [if_pos hveq]
          rfl
        · rw [if_neg hveq]
          simp [emPath, hq]
    · rw [List.find?_cons_of_neg _ (by simp [hq])]
      have hheadnil : (List.filter (fun e => decide (emPath e = p))
          (match lookupRec m qb.1 with
           | none => [Emission.onlyInDir qb.1]
           | some hv => if hv = hashFile qb.2 then []
              else [Emission.differs qb.1])) = [] := by
        cases hlook : lookupRec m qb.1 with
        | none => simp [emPath, hq]
        | some hv =>
          show List.filter (fun e => decide (emPath e = p))
            (if hv = hashFile qb.2 then [] else [Emission.differs qb.1]) = []
          by_cases hveq : hv = hashFile qb.2
          · rw [if_pos hveq]
            rfl
          · rw [if_neg hveq]
            simp [emPath, hq]
      rw [hheadnil, List.nil_append]
      exact hrest

theorem map_onlyInRec_filter {l : List FsPath} {p : FsPath} (hnd : l.Nodup) :
    (l.map Emission.onlyInRec).filter (fun e => decide (emPath e = p)) =
      if p ∈ l then [Emission.onlyInRec p] else [] := by
  induction l with
  | nil => simp
  | cons a rest ih =>
    rcases List.nodup_cons.mp hnd with ⟨hhead, htail⟩
    by_cases ha : a = p
    · subst ha
      rw [List.map_cons, List.filter_cons]
      have hd : (decide (emPath (Emission.onlyInRec a) = a)) = true := by simp [emPath]
      rw [hd, if_pos rfl, ih htail, if_neg hhead, if_pos (List.mem_cons_self a rest)]
    · rw [List.map_cons, List.filter_cons]
      have hd : (decide (emPath (Emission.onlyInRec a) = p)) = false := by
        simp [emPath, ha]
      rw [hd, if_neg (by simp), ih htail]
      have hmemiff : (p ∈ a :: rest) ↔ p ∈ rest := by
        constructor
        · intro hcon
          rcases List.mem_cons.mp hcon with h1 | h1
          · exact absurd h1.symm ha
          · exact h1
        · exact fun h1 => List.mem_cons_of_mem a h1
      by_cases hp : p ∈ rest
      · rw [if_pos hp, if_pos (hmemiff.mpr hp)]
      · rw [if_neg hp, if_neg (fun hc => hp (hmemiff.mp hc))]

/-- What `compare` produces once the record is loaded: the traversal
emissions in walk order, followed by one only-in-record line for every
record key not hit, in hash-iteration order. -/
theorem compareCore_eq (iter : List FsPath → List FsPath) (fs : Fs) (m : RecMap)
    (hErr : ErrFree fs = true) :
    compareCore iter fs m = .ok (travEmits (walk fs []) m ++
      (iter ((keysRec m).filter (fun k => decide (k ∉ livePaths fs)))).map
        Emission.onlyInRec) := by
  rcases compareHashes_ok fs [] m [] hErr with ⟨hits, heq, hmem⟩
  have hfil : (keysRec m).filter (fun k => decide (k ∉ hits)) =
      (keysRec m).filter (fun k => decide (k ∉ livePaths fs)) := by
    apply List.filter_congr
    intro k _
    have hiff : k ∈ hits ↔ k ∈ livePaths fs := by
      rw [hmem k]
      simp [livePaths]
    by_cases hk : k ∈ hits
    · simp [hk, hiff.mp hk]
    · have hk2 : k ∉ livePaths fs := fun hc => hk (hiff.mpr hc)
      simp [hk, hk2]
  rw [compareCore]
  simp only [heq]
  rw [hfil]

theorem travEmits_filter_of_none {files : List (FsPath × Bytes)} {m : RecMap}
    {p : FsPath} {b : Bytes} (hnd : (files.map (fun x => x.1)).Nodup)
    (hmem : (p, b) ∈ files) (hlook : lookupRec m p = none) :
    (travEmits files m).filter (fun e => decide (emPath e = p)) =
      [Emission.onlyInDir p] := by
  have h1 := @travEmits_filter_path files m p hnd
  rw [find?_key_of_nodup hnd hmem] at h1
  simpa [hlook] using h1

theorem travEmits_filter_of_some {files : List (FsPath × Bytes)} {m : RecMap}
    {p : FsPath} {b : Bytes} {hv : Digest} (hnd : (files.map (fun x => x.1)).Nodup)
    (hmem : (p, b) ∈ files) (hlook : lookupRec m p = some hv) :
    (travEmits files m).filter (fun e => decide (emPath e = p)) =
      if hv = hashFile b then [] else [Emission.differs p] := by
  have h1 := @travEmits_filter_path files m p hnd
  rw [find?_key_of_nodup hnd hmem] at h1
  simpa [hlook] using h1

/-- C1: in every reconciliation of a live directory against a loaded record,
every relative path of the live walk or of the record keys is classified
into exactly one of only-in-directory, only-in-record, differs, or
unchanged: the emitted lines mention only such paths, and for each path the
filtered output is exactly one matching line — only-in-directory when the
path is live only, only-in-record when it is recorded only, differs or
nothing (unchanged, no emission) when it is in both. -/
theorem compare_partition
    (fs : Fs) (m : RecMap) (iter : List FsPath → List FsPath) (out : List Emission)
    (hErr : ErrFree fs = true) (hNd : nodupNames fs = true)
    (hKeys : (keysRec m).Nodup)
    (hIter : ∀ l, List.Perm (iter l) l)
    (hRun : compareCore iter fs m = Except.ok out) :
    (∀ e ∈ out, emPath e ∈ livePaths fs ∨ emPath e ∈ keysRec m) ∧
    (∀ p ∈ livePaths fs, p ∉ keysRec m →
      out.filter (fun e => decide (emPath e = p)) = [Emission.onlyInDir p]) ∧
    (∀ p ∈ keysRec m, p ∉ livePaths fs →
      out.filter (fun e => decide (emPath e = p)) = [Emission.onlyInRec p]) ∧
    (∀ p ∈ livePaths fs, p ∈ keysRec m →
      out.filter (fun e => decide (emPath e = p)) = [Emission.differs p] ∨
      out.filter (fun e => decide (emPath e = p)) = []) := by
  have hout : out = travEmits (walk fs []) m ++
      (iter ((keysRec m).filter (fun k => decide (k ∉ livePaths fs)))).map
        Emission.onlyInRec := by
    have h := compareCore_eq iter fs m hErr
    rw [hRun] at h
    exact Except.ok.inj h
  have hWalkNodup : ((walk fs []).map (fun e => e.1)).Nodup := walk_nodup fs [] hNd
  have hDiffNodup : ((keysRec m).filter (fun k => decide (k ∉ livePaths fs))).Nodup :=
    hKeys.filter _
  have hIterNodup :
      (iter ((keysRec m).filter (fun k => decide (k ∉ livePaths fs)))).Nodup :=
    (List.Perm.nodup_iff (hIter _)).mpr hDiffNodup
  have hIterMem : ∀ p, p ∈ iter ((keysRec m).filter
      (fun k => decide (k ∉ livePaths fs))) ↔
      (p ∈ keysRec m ∧ p ∉ livePaths fs) := by
    intro p
    rw [(hIter _).mem_iff, List.mem_filter]
    constructor
    · rintro ⟨h1, h2⟩
      exact ⟨h1, of_decide_eq_true h2⟩
    · rintro ⟨h1, h2⟩
      exact ⟨h1, decide_eq_true h2⟩
  refine ⟨?_, ?_, ?_, ?_⟩
  · intro e he
    rw [hout, List.mem_append] at he
    rcases he with he | he
    · exact Or.inl (mem_travEmits he).1
    · rcases List.mem_map.mp he with ⟨p, hp, rfl⟩
      have := ((hIterMem p).mp hp).1
      exact Or.inr (by simpa [emPath] using this)
  · intro p hplive hpnokeys
    rw [hout, List.filter_append]
    rcases List.mem_map.mp hplive with ⟨pb, hpb, hpbeq⟩
    have hmemb : (p, pb.2) ∈ walk fs [] := by
      rw [← hpbeq]
      exact hpb
    have hlookup : lookupRec m p = none := lookupRec_eq_none.mpr hpnokeys
    rw [travEmits_filter_of_none hWalkNodup hmemb hlookup]
    rw [map_onlyInRec_filter hIterNodup,
      if_neg (fun hc => hpnokeys ((hIterMem p).mp hc).1)]
    rfl
  · intro p hpkeys hpnlive
    rw [hout, List.filter_append]
    rw [travEmits_filter_nil hpnlive]
    rw [map_onlyInRec_filter hIterNodup,
      if_pos ((hIterMem p).mpr ⟨hpkeys, hpnlive⟩)]
    rfl
  · intro p hplive hpkeys
    rw [hout, List.filter_append]
    rcases List.mem_map.mp hplive with ⟨pb, hpb, hpbeq⟩
    have hmemb : (p, pb.2) ∈ walk fs [] := by
      rw [← hpbeq]
      exact hpb
    have hrecnil : ((iter ((keysRec m).filter
        (fun k => decide (k ∉ livePaths fs)))).map Emission.onlyInRec).filter
        (fun e => decide (emPath e = p)) = [] := by
      rw [map_onlyInRec_filter hIterNodup,
        if_neg (fun hc => ((hIterMem p).mp hc).2 hplive)]
    rw [hrecnil]
    cases hlook : lookupRec m p with
    | none => exact absurd hpkeys (lookupRec_eq_none.mp hlook)
    | some hv =>
      rw [travEmits_filter_of_some hWalkNodup hmemb hlook]
      by_cases hveq : hv = hashFile pb.2
      · right
        rw [if_pos hveq]
        rfl
      · left
        rw [if_neg hveq]
        rfl

/-- C4: comparing a directory against the record just built from it, with no
change in between, emits nothing at all. -/
theorem compare_after_record_empty
    (fs : Fs) (m : RecMap) (iter : List FsPath → List FsPath)
    (hErr : ErrFree fs = true) (hNd : nodupNames fs = true)
    (hIter : ∀ l, List.Perm (iter l) l)
    (hm : recordHashes fs [] [] = Except.ok m) :
    compareCore iter fs m = Except.ok [] := by
  have hmrec := recordHashes_ok fs [] [] hErr
  rw [hm] at hmrec
  have hm2 : m = insertAll [] (entriesOf (walk fs [])) := Except.ok.inj hmrec
  subst hm2
  rw [compareCore_eq iter fs _ hErr]
  have hnd : ((walk fs []).map (fun e => e.1)).Nodup := walk_nodup fs [] hNd
  have hndE : ((entriesOf (walk fs [])).map (fun x => x.1)).Nodup := by
    simpa [entriesOf, List.map_map, Function.comp] using hnd
  have htravnil : travEmits (walk fs [])
      (insertAll [] (entriesOf (walk fs []))) = [] := by
    rw [travEmits, List.filterMap_eq_nil_iff]
    intro pb hpb
    have hment : (pb.1, hashFile pb.2) ∈ entriesOf (walk fs []) := by
      rw [entriesOf]
      exact List.mem_map_of_mem _ hpb
    have hlk : lookupRec (insertAll [] (entriesOf (walk fs []))) pb.1 =
        some (hashFile pb.2) := by
      have h := @lookupRec_insertAll (entriesOf (walk fs [])) hndE [] pb.1
      rw [find?_key_of_nodup hndE hment] at h
      simpa using h
    rw [hlk]
    simp
  rw [htravnil]
  have hfilnil : (keysRec (insertAll [] (entriesOf (walk fs [])))).filter
      (fun k => decide (k ∉ livePaths fs)) = [] := by
    rw [List.filter_eq_nil_iff]
    intro k hk
    have hk2 := mem_keys_insertAll.mp hk
    rcases hk2 with h | h
    · have hk3 : k ∈ livePaths fs := by
        simpa [entriesOf, List.map_map, Function.comp, livePaths] using h
      simp [hk3]
    · cases h
  rw [hfilnil, (hIter []).eq_nil]
  rfl

/-- C6: a root that is missing or not a directory yields an empty walk
rather than an error, and the comparison then classifies every record key
as only-in-record. -/
theorem compare_nonexistent_root
    (fs : Fs) (m : RecMap) (iter : List FsPath → List FsPath)
    (pre : FsPath) (acc : RecMap)
    (hdir : isDir fs = false) (hIter : ∀ l, List.Perm (iter l) l) :
    walk fs pre = [] ∧
    recordHashes fs pre acc = Except.ok acc ∧
    compareCore iter fs m = Except.ok ((iter (keysRec m)).map Emission.onlyInRec) ∧
    List.Perm ((iter (keysRec m)).map Emission.onlyInRec)
      ((keysRec m).map Emission.onlyInRec) := by
  have hfil : (keysRec m).filter (fun k => decide (k ∉ ([] : List FsPath))) =
      keysRec m := by
    rw [List.filter_eq_self]
    intro a _
    simp
  cases fs with
  | file b =>
    refine ⟨rfl, rfl, ?_, List.Perm.map _ (hIter _)⟩
    rw [compareCore]
    show Except.ok (([] : List Emission) ++ (iter ((keysRec m).filter
      (fun k => decide (k ∉ ([] : List FsPath))))).map Emission.onlyInRec) = _
    rw [hfil, List.nil_append]
  | fileErr =>
    refine ⟨rfl, rfl, ?_, List.Perm.map _ (hIter _)⟩
    rw [compareCore]
    show Except.ok (([] : List Emission) ++ (iter ((keysRec m).filter
      (fun k => decide (k ∉ ([] : List FsPath))))).map Emission.onlyInRec) = _
    rw [hfil, List.nil_append]
  | missing =>
    refine ⟨rfl, rfl, ?_, List.Perm.map _ (hIter _)⟩
    rw [compareCore]
    show Except.ok (([] : List Emission) ++ (iter ((keysRec m).filter
      (fun k => decide (k ∉ ([] : List FsPath))))).map Emission.onlyInRec) = _
    rw [hfil, List.nil_append]
  | dirErr => simp [isDir] at hdir
  | dirNil => simp [isDir] at hdir
  | dirCons n c rest => simp [isDir] at hdir

/-- C5 (amended): the only-in-record lines always form the tail of the
output, after every traversal emission, and their paths are a permutation
of the record keys that were never hit; their relative order follows the
hash-set iteration order, which is not fixed across runs. -/
theorem compare_rec_lines_last
    (fs : Fs) (m : RecMap) (iter : List FsPath → List FsPath) (out : List Emission)
    (hErr : ErrFree fs = true)
    (hIter : ∀ l, List.Perm (iter l) l)
    (hRun : compareCore iter fs m = Except.ok out) :
    out = travEmits (walk fs []) m ++
      (iter ((keysRec m).filter (fun k => decide (k ∉ livePaths fs)))).map
        Emission.onlyInRec ∧
    (∀ e ∈ travEmits (walk fs []) m, ∀ p, e ≠ Emission.onlyInRec p) ∧
    List.Perm (((iter ((keysRec m).filter
        (fun k => decide (k ∉ livePaths fs)))).map Emission.onlyInRec).map emPath)
      ((keysRec m).filter (fun k => decide (k ∉ livePaths fs))) := by
  have hout : out = travEmits (walk fs []) m ++
      (iter ((keysRec m).filter (fun k => decide (k ∉ livePaths fs)))).map
        Emission.onlyInRec := by
    have h := compareCore_eq iter fs m hErr
    rw [hRun] at h
    exact Except.ok.inj h
  refine ⟨hout, fun e he => (mem_travEmits he).2, ?_⟩
  rw [List.map_map]
  have hid : (emPath ∘ Emission.onlyInRec) = fun p => p := by
    funext p
    simp [emPath, Function.comp]
  rw [hid]
  simpa using hIter _

/-- The two-key record used to exhibit the run-dependent only-in-record
order. -/
def mTwo : RecMap := [([['a']], ['h']), ([['b']], ['h'])]

/-- C5 (counterexample to the stated determinism): over the same empty
directory and the same two-key record, the identity iteration order and the
reversed iteration order — both legitimate hash-set iteration orders, since
`HashSet` fixes none — emit the only-in-record lines in two different
orders, so two runs of the same comparison need not produce the same
sequence. -/
theorem compare_rec_order_not_deterministic :
    compareCore idIter Fs.dirNil mTwo =
      Except.ok [Emission.onlyInRec [['a']], Emission.onlyInRec [['b']]] ∧
    compareCore revIter Fs.dirNil mTwo =
      Except.ok [Emission.onlyInRec [['b']], Emission.onlyInRec [['a']]] ∧
    ([Emission.onlyInRec [['a']], Emission.onlyInRec [['b']]] :
        List Emission) ≠
      [Emission.onlyInRec [['b']], Emission.onlyInRec [['a']]] := by
  refine ⟨rfl, rfl, by decide⟩


/-- A small concrete tree: file `a` with bytes `[120]` and file `b` with
bytes `[121]` inside subdirectory `s`. -/
def fsW : Fs :=
  Fs.dirCons ['a'] (Fs.file [120])
    (Fs.dirCons ['s'] (Fs.dirCons ['b'] (Fs.file [121]) Fs.dirNil) Fs.dirNil)

/-- Witness for C1 at a concrete tree and record: the path that is live only
is classified exactly once, as only-in-directory. -/
theorem compare_partition_witness :
    compareCore idIter fsW mTwo = Except.ok
      [Emission.differs [['a']], Emission.onlyInDir [['s'], ['b']],
        Emission.onlyInRec [['b']]] ∧
    ([Emission.differs [['a']], Emission.onlyInDir [['s'], ['b']],
        Emission.onlyInRec [['b']]].filter
      (fun e => decide (emPath e = [['s'], ['b']])) =
      [Emission.onlyInDir [['s'], ['b']]]) :=
  ⟨rfl, (compare_partition fsW mTwo idIter _ rfl (by decide) (by decide)
      (fun l => List.Perm.refl l) rfl).2.1 [['s'], ['b']] (by decide) (by decide)⟩

/-- Witness for C4: recording the concrete tree and comparing it against the
resulting record emits nothing. -/
theorem compare_after_record_witness :
    compareCore idIter fsW (insertAll [] (entriesOf (walk fsW []))) =
      Except.ok [] :=
  compare_after_record_empty fsW _ idIter rfl (by decide)
    (fun l => List.Perm.refl l) (recordHashes_ok fsW [] [] rfl)

/-- Witness for C6: a missing root walks to nothing and every record key of
the concrete two-key record comes back as only-in-record. -/
theorem compare_nonexistent_root_witness :
    walk Fs.missing [] = [] ∧
    recordHashes Fs.missing [] [] = Except.ok [] ∧
    compareCore idIter Fs.missing mTwo =
      Except.ok ((idIter (keysRec mTwo)).map Emission.onlyInRec) ∧
    List.Perm ((idIter (keysRec mTwo)).map Emission.onlyInRec)
      ((keysRec mTwo).map Emission.onlyInRec) :=
  compare_nonexistent_root Fs.missing mTwo idIter [] [] rfl
    (fun l => List.Perm.refl l)

/-- Witness for the amended C5 at a concrete empty directory and two-key
record. -/
theorem compare_rec_lines_last_witness :
    ([Emission.onlyInRec [['a']], Emission.onlyInRec [['b']]] : List Emission) =
      travEmits (walk Fs.dirNil []) mTwo ++
        (idIter ((keysRec mTwo).filter
          (fun k => decide (k ∉ livePaths Fs.dirNil)))).map Emission.onlyInRec :=
  (compare_rec_lines_last Fs.dirNil mTwo idIter _ rfl
    (fun l => List.Perm.refl l) rfl).1


/-- The last-dot split of a character list: `some (a, b)` when the list is
`a ++ \'.\' :: b` with no dot in `b`, `none` when it has no dot. -/
def lastDotSplit : List Char → Option (List Char × List Char)
  | [] => none
  | c :: rest =>
    match lastDotSplit rest with
    | some (a, b) => some (c :: a, b)
    | none => if c = '.' then some ([], rest) else none

/-- Rust file-name stem and extension: the extension is the portion after
the final dot, where a dot at position zero alone does not count (so a name
such as `.gitignore` has no extension), matching `Path::extension`. -/
def fileStemExt (f : List Char) : List Char × Option (List Char) :=
  match f with
  | [] => ([], none)
  | c :: rest =>
    match lastDotSplit rest with
    | some (a, b) => (c :: a, some b)
    | none => (c :: rest, none)

/-- `Path::extension` on a file name. -/
def rustExtension (f : List Char) : Option (List Char) := (fileStemExt f).2

/-- `Path::file_stem` on a file name. -/
def rustFileStem (f : List Char) : List Char := (fileStemExt f).1

/-- `Path::set_extension`: keep the stem and append a dot and the new
extension (no dot when the new extension is empty). -/
def setExtension (f : List Char) (e : List Char) : List Char :=
  if e = [] then rustFileStem f else rustFileStem f ++ '.' :: e

/-- A path argument as handed to the program: parent components plus a file
name.  `with_extension` only ever rewrites the file name. -/
structure ArgPath where
  dirs : List (List Char)
  fname : List Char
deriving DecidableEq

/-- The fixed record-file extension. -/
def binChars : List Char := ['b', 'i', 'n']

/-- `record_path.with_extension("bin")`: replace the file name's extension;
a path without a file name is left unchanged, as in Rust. -/
def withExtensionBin (p : ArgPath) : ArgPath :=
  if p.fname = [] then p else ArgPath.mk p.dirs (setExtension p.fname binChars)

/-- Little-endian fixed-width byte rendering of a number, as bincode writes
a `u64` length. -/
def encodeLE : Nat → Nat → Bytes
  | 0, _ => []
  | w + 1, n => n % 256 :: encodeLE w (n / 256)

/-- Little-endian fixed-width byte parsing; fails on truncated input. -/
def decodeLE : Nat → Bytes → Option (Nat × Bytes)
  | 0, bs => some (0, bs)
  | _ + 1, [] => none
  | w + 1, b :: bs =>
    match decodeLE w bs with
    | some (n, rest) => some (b + 256 * n, rest)
    | none => none

/-- The separator-joined rendering of a relative path, as `PathBuf`
serializes itself through its string form. -/
def joinComps : FsPath → List Char
  | [] => []
  | [c] => c
  | c :: rest => c ++ '/' :: joinComps rest

/-- Splitting a path string back into components at every separator. -/
def splitSlash : List Char → FsPath
  | [] => [[]]
  | c :: rest =>
    match splitSlash rest with
    | [] => [[c]]
    | h :: t => if c = '/' then [] :: h :: t else (c :: h) :: t

/-- The byte rendering of a string; faithful to UTF-8 on the ASCII strings
the wellformedness predicates restrict to. -/
def strBytes (s : List Char) : Bytes := s.map Char.toNat

/-- A bincode string: a length followed by the bytes. -/
def encodeStr (s : List Char) : Bytes := encodeLE 8 s.length ++ strBytes s

/-- Parsing a bincode string: fails on truncation or a byte that is not
valid on its own (the model's ASCII restriction of UTF-8 validity). -/
def decodeStr (bs : Bytes) : Option (List Char × Bytes) :=
  match decodeLE 8 bs with
  | none => none
  | some (n, rest) =>
    if n ≤ rest.length then
      if (rest.take n).all (fun b => decide (b < 128)) then
        some ((rest.take n).map Char.ofNat, rest.drop n)
      else none
    else none

/-- Modelled from the spec: `bincode::serialize` of the
`BTreeMap<PathBuf, String>`, an external crate the spec treats as an opaque
encode half of an encode/decode pair.  Modelled concretely as bincode v1
lays the map out: an entry count, then for each entry the path string and
the digest string, each length-prefixed. -/
def serializeRecord (m : RecMap) : Bytes :=
  encodeLE 8 m.length ++
    (m.map (fun e => encodeStr (joinComps e.1) ++ encodeStr e.2)).flatten

/-- Parsing the given number of entries off the byte stream. -/
def decodeEntries : Nat → Bytes → Option (List (FsPath × Digest) × Bytes)
  | 0, bs => some ([], bs)
  | n + 1, bs =>
    match decodeStr bs with
    | none => none
    | some (ps, bs1) =>
      match decodeStr bs1 with
      | none => none
      | some (ds, bs2) =>
        match decodeEntries n bs2 with
        | none => none
        | some (es, bs3) => some ((splitSlash ps, ds) :: es, bs3)

/-- Modelled from the spec: `bincode::deserialize` back into
`BTreeMap<PathBuf, String>` — the decode half of the opaque pair.  It fails
on malformed, truncated or invalid input and rebuilds the map by inserting
each decoded entry, which normalizes order exactly as the B-tree visitor
does; like bincode v1 it does not reject trailing bytes. -/
def deserializeRecord (bs : Bytes) : Option RecMap :=
  match decodeLE 8 bs with
  | none => none
  | some (n, rest) =>
    match decodeEntries n rest with
    | none => none
    | some (es, _) => some (insertAll [] es)

/-- How one invocation of `read_record` ends: a loaded map, a propagated
I/O error from `fs::read`, or the panic of the `unwrap` on a failed
deserialize. -/
inductive LoadOutcome where
  | ok (m : RecMap)
  | ioError
  | panicked
deriving DecidableEq

/-- `read_record(record_path)` against a store of files: reads exactly the
supplied path, propagates a missing file as an I/O error, and `unwrap`s the
deserialization — panicking when it fails. -/
def readRecordAt (store : ArgPath → Option Bytes) (rp : ArgPath) : LoadOutcome :=
  match store rp with
  | none => LoadOutcome.ioError
  | some bs =>
    match deserializeRecord bs with
    | some m => LoadOutcome.ok m
    | none => LoadOutcome.panicked

/-- `record(directory, record_path)`: build the snapshot, then — only on
success — serialize it and write it at the supplied path with its extension
replaced by `bin`.  The returned pair is the single `fs::write` the
operation performs; an error means nothing is written. -/
def recordOp (fs : Fs) (rp : ArgPath) : Except IoErr (ArgPath × Bytes) :=
  match recordHashes fs [] [] with
  | .error e => .error e
  | .ok m => .ok (withExtensionBin rp, serializeRecord m)

/-- One line of `list` output: `path -> hash`. -/
def renderLine (e : FsPath × Digest) : List Char :=
  joinComps e.1 ++ ' ' :: '-' :: '>' :: ' ' :: e.2

/-- The lines `list` prints: one per stored pair, in stored order. -/
def listLines (m : RecMap) : List (List Char) := m.map renderLine

theorem lastDotSplit_none {l : List Char} (h : '.' ∉ l) : lastDotSplit l = none := by
  induction l with
  | nil => rfl
  | cons c rest ih =>
    have hc : c ≠ '.' := fun hc => h (hc ▸ List.mem_cons_self c rest)
    have hr : '.' ∉ rest := fun hr => h (List.mem_cons_of_mem c hr)
    rw [lastDotSplit, ih hr]
    simp [hc]

theorem lastDotSplit_append {a b : List Char} (hb : '.' ∉ b) :
    lastDotSplit (a ++ '.' :: b) = some (a, b) := by
  induction a with
  | nil =>
    rw [List.nil_append, lastDotSplit, lastDotSplit_none hb]
    simp
  | cons c a' ih =>
    rw [List.cons_append, lastDotSplit, ih]

theorem rustFileStem_cons (x : Char) (rest : List Char) :
    ∃ s, rustFileStem (x :: rest) = x :: s := by
  rw [rustFileStem, fileStemExt]
  cases lastDotSplit rest with
  | none => exact ⟨rest, rfl⟩
  | some ab => exact ⟨ab.1, rfl⟩

theorem rustExtension_setExtension (f : List Char) (hne : f ≠ []) :
    rustExtension (setExtension f binChars) = some binChars := by
  cases f with
  | nil => exact absurd rfl hne
  | cons x rest =>
    rcases rustFileStem_cons x rest with ⟨s, hs⟩
    rw [setExtension, if_neg (by simp [binChars]), hs]
    rw [List.cons_append]
    rw [rustExtension, fileStemExt]
    rw [lastDotSplit_append (by decide)]

/-- C7: the record operation persists at the supplied path with the file
name's extension replaced by the fixed `bin` suffix, whatever extension was
supplied; the write target's extension is always `bin`. -/
theorem record_extension_normalized
    (fs : Fs) (m : RecMap) (rp : ArgPath)
    (hname : rp.fname ≠ [])
    (hok : recordHashes fs [] [] = Except.ok m) :
    recordOp fs rp = Except.ok
      (ArgPath.mk rp.dirs (setExtension rp.fname binChars), serializeRecord m) ∧
    rustExtension (setExtension rp.fname binChars) = some binChars := by
  constructor
  · rw [recordOp]
    simp only [hok]
    rw [withExtensionBin, if_neg hname]
  · exact rustExtension_setExtension rp.fname hname

/-- Witness for C7: recording an empty directory to `rec.txt` writes
`rec.bin`. -/
theorem record_extension_normalized_witness :
    recordOp Fs.dirNil (ArgPath.mk [] ['r', 'e', 'c', '.', 't', 'x', 't']) =
      Except.ok (ArgPath.mk []
        (setExtension ['r', 'e', 'c', '.', 't', 'x', 't'] binChars),
        serializeRecord []) ∧
    rustExtension (setExtension ['r', 'e', 'c', '.', 't', 'x', 't'] binChars) =
      some binChars :=
  record_extension_normalized Fs.dirNil []
    (ArgPath.mk [] ['r', 'e', 'c', '.', 't', 'x', 't']) (by decide) rfl

theorem recordHashes_error (fs : Fs) :
    ∀ (pre : FsPath) (acc : RecMap), validFs fs = true → isDir fs = true →
      ErrFree fs = false → recordHashes fs pre acc = .error IoErr.ioErr := by
  induction fs with
  | dirErr => intro pre acc _ _ _; rfl
  | dirNil => intro pre acc _ _ h2; simp [ErrFree] at h2
  | file b => intro pre acc _ h1 _; simp [isDir] at h1
  | fileErr => intro pre acc _ h1 _; simp [isDir] at h1
  | missing => intro pre acc _ h1 _; simp [isDir] at h1
  | dirCons n c rest ihc ihr =>
    intro pre acc hv _ h2
    simp only [validFs, Bool.and_eq_true] at hv
    rcases hv with ⟨⟨hvc, hvr⟩, hlr⟩
    simp only [ErrFree] at h2
    have hdr : isDir rest = true := by
      cases rest with
      | dirNil => rfl
      | dirCons n' c' rest' => rfl
      | file b' => simp [isListing] at hlr
      | fileErr => simp [isListing] at hlr
      | missing => simp [isListing] at hlr
      | dirErr => simp [isListing] at hlr
    by_cases hec : ErrFree c = true
    · have her : ErrFree rest = false := by
        rw [hec, Bool.true_and] at h2
        exact h2
      by_cases hd : isDir c = true
      · rw [recordHashes, if_pos hd]
        simp only [recordHashes_ok c (pre ++ [n]) acc hec]
        exact ihr pre _ hvr hdr her
      · have hcfile : ∃ b, c = Fs.file b := by
          cases c with
          | file b => exact ⟨b, rfl⟩
          | fileErr => simp [ErrFree] at hec
          | missing => simp [ErrFree] at hec
          | dirErr => simp [isDir] at hd
          | dirNil => simp [isDir] at hd
          | dirCons n' c' rest' => simp [isDir] at hd
        rcases hcfile with ⟨b, rfl⟩
        rw [recordHashes, if_neg hd]
        simp only [readFile]
        exact ihr pre _ hvr hdr her
    · have hec' : ErrFree c = false := by simpa using hec
      by_cases hd : isDir c = true
      · rw [recordHashes, if_pos hd]
        simp only [ihc (pre ++ [n]) acc hvc hd hec']
      · have hread : readFile c = .error IoErr.ioErr := by
          cases c with
          | file b => simp [ErrFree] at hec'
          | fileErr => rfl
          | missing => rfl
          | dirErr => simp [isDir] at hd
          | dirNil => simp [isDir] at hd
          | dirCons n' c' rest' => simp [isDir] at hd
        rw [recordHashes, if_neg hd]
        simp only [hread]

/-- C8: when any node of the walked directory fails to read — a file whose
bytes cannot be read or a directory whose entries cannot be listed — the
whole record operation aborts with the propagated I/O error and performs no
write at all. -/
theorem record_aborts_on_io_error
    (fs : Fs) (rp : ArgPath)
    (hv : validFs fs = true) (h1 : isDir fs = true) (h2 : ErrFree fs = false) :
    recordOp fs rp = .error IoErr.ioErr ∧
    recordHashes fs [] [] = .error IoErr.ioErr := by
  have h := recordHashes_error fs [] [] hv h1 h2
  refine ⟨?_, h⟩
  rw [recordOp]
  simp only [h]

/-- Witness for C8: a directory with one unreadable file records nothing
and errors. -/
theorem record_aborts_on_io_error_witness :
    recordOp (Fs.dirCons ['a'] Fs.fileErr Fs.dirNil) (ArgPath.mk [] ['r']) =
      .error IoErr.ioErr ∧
    recordHashes (Fs.dirCons ['a'] Fs.fileErr Fs.dirNil) [] [] =
      .error IoErr.ioErr :=
  record_aborts_on_io_error (Fs.dirCons ['a'] Fs.fileErr Fs.dirNil)
    (ArgPath.mk [] ['r']) rfl rfl rfl

/-- C10: the `bin` normalization happens only on save: `record` writes at
the rewritten path while `compare` and `list` read the supplied path
unmodified, so with any supplied extension other than `bin` the read goes
to a different file — here, to one that does not exist. -/
theorem extension_normalized_only_on_save
    (rp : ArgPath) (bs : Bytes)
    (h1 : rp.fname ≠ []) (h2 : rustExtension rp.fname ≠ some binChars) :
    withExtensionBin rp ≠ rp ∧
    readRecordAt (fun p => if p = withExtensionBin rp then some bs else none) rp =
      LoadOutcome.ioError := by
  have hne : withExtensionBin rp ≠ rp := by
    intro hcon
    have hext : rustExtension (withExtensionBin rp).fname = rustExtension rp.fname :=
      congrArg (fun p => rustExtension p.fname) hcon
    rw [withExtensionBin, if_neg h1] at hext
    exact h2 (hext ▸ rustExtension_setExtension rp.fname h1 ▸ rfl)
  refine ⟨hne, ?_⟩
  simp only [readRecordAt]
  rw [if_neg (fun hc => hne hc.symm)]

/-- Witness for C10: after recording to `rec.txt` the record lands in
`rec.bin`, and a compare or list against `rec.txt` reads a missing file. -/
theorem extension_normalized_only_on_save_witness :
    withExtensionBin (ArgPath.mk [] ['r', 'e', 'c', '.', 't', 'x', 't']) ≠
      ArgPath.mk [] ['r', 'e', 'c', '.', 't', 'x', 't'] ∧
    readRecordAt (fun p =>
        if p = withExtensionBin (ArgPath.mk [] ['r', 'e', 'c', '.', 't', 'x', 't'])
        then some [] else none)
      (ArgPath.mk [] ['r', 'e', 'c', '.', 't', 'x', 't']) = LoadOutcome.ioError :=
  extension_normalized_only_on_save
    (ArgPath.mk [] ['r', 'e', 'c', '.', 't', 'x', 't']) []
    (by decide) (by decide)

/-- C3: on a record file whose single byte cannot begin a valid encoding,
deserialization fails, and `read_record` — which `unwrap`s the result —
panics instead of surfacing a decode error; in particular the input is not
treated as an empty record. -/
theorem read_record_panics_on_malformed :
    deserializeRecord [255] = none ∧
    readRecordAt (fun _ => some [255]) (ArgPath.mk [] ['r']) =
      LoadOutcome.panicked ∧
    readRecordAt (fun _ => some [255]) (ArgPath.mk [] ['r']) ≠
      LoadOutcome.ok [] :=
  ⟨rfl, rfl, by decide⟩


/-- All characters of a string are ASCII, so its byte and character forms
correspond one to one. -/
def asciiStr (s : List Char) : Bool := s.all (fun c => decide (c.toNat < 128))

theorem hexDigitChar_toNat_lt (n : Nat) : (hexDigitChar n).toNat < 128 := by
  unfold hexDigitChar
  split <;> decide

theorem natToHex_length (w : Nat) : ∀ n, (natToHex w n).length = w := by
  induction w with
  | zero => intro n; rfl
  | succ w ih => intro n; simp [natToHex, ih]

theorem natToHex_ascii (w : Nat) : ∀ n, asciiStr (natToHex w n) = true := by
  induction w with
  | zero => intro n; rfl
  | succ w ih =>
    intro n
    rw [natToHex, asciiStr, List.all_append]
    have h1 := ih (n / 16)
    rw [asciiStr] at h1
    simp [h1, hexDigitChar_toNat_lt]

theorem hashFile_ascii (b : Bytes) : asciiStr (hashFile b) = true :=
  natToHex_ascii 64 _

theorem hashFile_length (b : Bytes) : (hashFile b).length = 64 :=
  natToHex_length 64 _

theorem decodeLE_encodeLE (w : Nat) :
    ∀ (n : Nat) (rest : Bytes),
      decodeLE w (encodeLE w n ++ rest) = some (n % 256 ^ w, rest) := by
  induction w with
  | zero => intro n rest; simp [encodeLE, decodeLE, Nat.mod_one]
  | succ w ih =>
    intro n rest
    rw [encodeLE, List.cons_append, decodeLE]
    simp only [ih (n / 256)]
    have harith : n % 256 + 256 * (n / 256 % 256 ^ w) = n % 256 ^ (w + 1) := by
      rw [Nat.pow_succ']
      exact Nat.mod_mul.symm
    rw [harith]

theorem decodeLE8_encodeLE8 {n : Nat} (h : n < 2 ^ 64) (rest : Bytes) :
    decodeLE 8 (encodeLE 8 n ++ rest) = some (n, rest) := by
  rw [decodeLE_encodeLE]
  have h2 : n < 256 ^ 8 := by
    have he : (256 : Nat) ^ 8 = 2 ^ 64 := by norm_num
    rw [he]
    exact h
  rw [Nat.mod_eq_of_lt h2]

theorem strBytes_length (s : List Char) : (strBytes s).length = s.length := by
  simp [strBytes]

theorem decodeStr_encodeStr {s : List Char} (hascii : asciiStr s = true)
    (hlen : s.length < 2 ^ 64) (rest : Bytes) :
    decodeStr (encodeStr s ++ rest) = some (s, rest) := by
  rw [encodeStr, List.append_assoc, decodeStr]
  simp only [decodeLE8_encodeLE8 hlen]
  have hlen2 : s.length ≤ (strBytes s ++ rest).length := by
    rw [List.length_append, strBytes_length]
    omega
  rw [if_pos hlen2]
  have htake : (strBytes s ++ rest).take s.length = strBytes s :=
    List.take_left' (strBytes_length s)
  have hdrop : (strBytes s ++ rest).drop s.length = rest :=
    List.drop_left' (strBytes_length s)
  rw [htake, hdrop]
  have hall : (strBytes s).all (fun b => decide (b < 128)) = true := by
    rw [strBytes, List.all_eq_true]
    intro b hb
    rcases List.mem_map.mp hb with ⟨c, hc, rfl⟩
    rw [asciiStr, List.all_eq_true] at hascii
    exact hascii c hc
  rw [if_pos hall]
  have hmap : (strBytes s).map Char.ofNat = s := by
    rw [strBytes, List.map_map]
    have hpt : ∀ a ∈ s, (Char.ofNat ∘ Char.toNat) a = id a := by
      intro a _
      simp [Function.comp]
    rw [List.map_congr_left hpt, List.map_id]
  rw [hmap]

theorem splitSlash_ne_nil (l : List Char) : splitSlash l ≠ [] := by
  cases l with
  | nil => simp [splitSlash]
  | cons c rest =>
    rw [splitSlash]
    cases hsp : splitSlash rest with
    | nil => simp
    | cons h t =>
      by_cases hc : c = '/'
      · simp [hc]
      · simp [hc]

theorem splitSlash_noSlash {x : List Char} (h : '/' ∉ x) : splitSlash x = [x] := by
  induction x with
  | nil => rfl
  | cons c rest ih =>
    have hc : c ≠ '/' := fun hc => h (hc ▸ List.mem_cons_self c rest)
    have hr : '/' ∉ rest := fun hr => h (List.mem_cons_of_mem c hr)
    rw [splitSlash, ih hr]
    simp [hc]

theorem splitSlash_append {x : List Char} (t : List Char) (h : '/' ∉ x) :
    splitSlash (x ++ '/' :: t) = x :: splitSlash t := by
  induction x with
  | nil =>
    rw [List.nil_append, splitSlash]
    cases hsp : splitSlash t with
    | nil => exact absurd hsp (splitSlash_ne_nil t)
    | cons h' t' => simp
  | cons c x' ih =>
    have hc : c ≠ '/' := fun hcc => h (hcc ▸ List.mem_cons_self c x')
    have hx' : '/' ∉ x' := fun hr => h (List.mem_cons_of_mem c hr)
    rw [List.cons_append, splitSlash, ih hx']
    simp [hc]

theorem splitSlash_joinComps {p : FsPath} :
    p ≠ [] → (∀ c ∈ p, '/' ∉ c) → splitSlash (joinComps p) = p := by
  induction p with
  | nil => intro h _; exact absurd rfl h
  | cons c rest ih =>
    intro _ hc
    cases rest with
    | nil => exact splitSlash_noSlash (hc c (by simp))
    | cons c2 rest' =>
      have hcc : '/' ∉ c := hc c (by simp)
      have htl : splitSlash (joinComps (c2 :: rest')) = c2 :: rest' :=
        ih (by simp) (fun x hx => hc x (List.mem_cons_of_mem c hx))
      show splitSlash (c ++ '/' :: joinComps (c2 :: rest')) = c :: c2 :: rest'
      rw [splitSlash_append _ hcc, htl]

theorem joinComps_ascii {p : FsPath} (h : ∀ c ∈ p, asciiStr c = true) :
    asciiStr (joinComps p) = true := by
  induction p with
  | nil => rfl
  | cons c rest ih =>
    cases rest with
    | nil => simpa [joinComps] using h c (by simp)
    | cons c2 rest' =>
      have hhead := h c (by simp)
      have htail : asciiStr (joinComps (c2 :: rest')) = true :=
        ih (fun x hx => h x (List.mem_cons_of_mem c hx))
      show asciiStr (c ++ '/' :: joinComps (c2 :: rest')) = true
      rw [asciiStr, List.all_append, List.all_cons]
      rw [asciiStr] at hhead htail
      simp [hhead, htail]

theorem mem_insertAll {l : List (FsPath × Digest)} :
    ∀ {acc : RecMap} {e : FsPath × Digest}, e ∈ insertAll acc l → e ∈ l ∨ e ∈ acc := by
  induction l with
  | nil => intro acc e h; exact Or.inr (by simpa [insertAll] using h)
  | cons x l' ih =>
    intro acc e h
    rw [insertAll_cons] at h
    rcases ih h with h1 | h1
    · exact Or.inl (List.mem_cons_of_mem x h1)
    · rcases mem_insertRec h1 with h2 | h2
      · exact Or.inl (by rw [h2]; exact List.mem_cons_self x l')
      · exact Or.inr h2

theorem wfName_spec {n : FName} (h : wfName n = true) :
    n ≠ [] ∧ '/' ∉ n ∧ asciiStr n = true := by
  rw [wfName] at h
  simp only [Bool.and_eq_true] at h
  rcases h with ⟨h1, h2⟩
  refine ⟨of_decide_eq_true h1, ?_, ?_⟩
  · intro hmem
    have h3 := List.all_eq_true.mp h2 _ hmem
    simp only [Bool.and_eq_true] at h3
    exact (of_decide_eq_true h3.1) rfl
  · rw [asciiStr, List.all_eq_true]
    intro c hc
    have h3 := List.all_eq_true.mp h2 c hc
    simp only [Bool.and_eq_true] at h3
    exact h3.2

theorem walk_comps (fs : Fs) :
    ∀ (pre p : FsPath), wfNames fs = true →
      p ∈ (walk fs pre).map (fun e => e.1) →
      ∃ s, p = pre ++ s ∧ s ≠ [] ∧ ∀ comp ∈ s, wfName comp = true := by
  induction fs with
  | dirCons n c rest ihc ihr =>
    intro pre p hwf hp
    simp only [wfNames, Bool.and_eq_true] at hwf
    rcases hwf with ⟨⟨hwn, hwc⟩, hwr⟩
    rw [walk, List.map_append, List.mem_append] at hp
    rcases hp with hp | hp
    · by_cases hd : isDir c = true
      · rw [if_pos hd] at hp
        rcases ihc (pre ++ [n]) p hwc hp with ⟨s, heq, _, hcomp⟩
        refine ⟨n :: s, ?_, by simp, ?_⟩
        · rw [heq, List.append_assoc]
          rfl
        · intro comp hcm
          rcases List.mem_cons.mp hcm with h | h
          · rw [h]; exact hwn
          · exact hcomp comp h
      · rw [if_neg hd] at hp
        simp only [List.map_cons, List.map_nil, List.mem_singleton] at hp
        refine ⟨[n], hp, by simp, ?_⟩
        intro comp hcm
        rcases List.mem_cons.mp hcm with h | h
        · rw [h]; exact hwn
        · cases h
    · exact ihr pre p hwr hp
  | file b => intro pre p _ hp; simp [walk] at hp
  | fileErr => intro pre p _ hp; simp [walk] at hp
  | missing => intro pre p _ hp; simp [walk] at hp
  | dirErr => intro pre p _ hp; simp [walk] at hp
  | dirNil => intro pre p _ hp; simp [walk] at hp

theorem decodeEntries_encode :
    ∀ (l : List (FsPath × Digest)) (rest : Bytes),
      (∀ e ∈ l, e.1 ≠ [] ∧ (∀ c ∈ e.1, '/' ∉ c) ∧
        asciiStr (joinComps e.1) = true ∧ (joinComps e.1).length < 2 ^ 64 ∧
        asciiStr e.2 = true ∧ e.2.length < 2 ^ 64) →
      decodeEntries l.length
        ((l.map (fun e => encodeStr (joinComps e.1) ++ encodeStr e.2)).flatten ++
          rest) = some (l, rest) := by
  intro l
  induction l with
  | nil => intro rest _; simp [decodeEntries]
  | cons e l' ih =>
    intro rest hwf
    rcases hwf e (List.mem_cons_self e l') with ⟨h1, h2, h3, h4, h5, h6⟩
    rw [List.map_cons, List.flatten_cons, List.length_cons]
    rw [List.append_assoc, List.append_assoc]
    rw [decodeEntries]
    simp only [decodeStr_encodeStr h3 h4]
    simp only [decodeStr_encodeStr h5 h6]
    simp only [ih rest (fun x hx => hwf x (List.mem_cons_of_mem e hx))]
    rw [splitSlash_joinComps h1 h2]

/-- C2: a snapshot built from a directory, serialized and deserialized
again, comes back as exactly the same mapping: every key and digest is
reproduced and the sorted order is restored by the map's own inserts. -/
theorem record_save_load_roundtrip
    (fs : Fs) (m : RecMap)
    (hErr : ErrFree fs = true) (hWf : wfNames fs = true)
    (hm : recordHashes fs [] [] = Except.ok m)
    (hLen : m.length < 2 ^ 64)
    (hKeyLen : ∀ e ∈ m, (joinComps e.1).length < 2 ^ 64) :
    deserializeRecord (serializeRecord m) = some m := by
  have hmeq : m = insertAll [] (entriesOf (walk fs [])) := by
    have h := recordHashes_ok fs [] [] hErr
    rw [hm] at h
    exact Except.ok.inj h
  have hsorted : SortedRec m := by
    rw [hmeq]
    exact sorted_insertAll List.Pairwise.nil
  have hwfent : ∀ e ∈ m, e.1 ≠ [] ∧ (∀ c ∈ e.1, '/' ∉ c) ∧
      asciiStr (joinComps e.1) = true ∧ (joinComps e.1).length < 2 ^ 64 ∧
      asciiStr e.2 = true ∧ e.2.length < 2 ^ 64 := by
    intro e he
    have he2 : e ∈ entriesOf (walk fs []) ∨ e ∈ ([] : RecMap) :=
      mem_insertAll (hmeq ▸ he)
    rcases he2 with he2 | he2
    swap
    · cases he2
    rw [entriesOf, List.mem_map] at he2
    rcases he2 with ⟨pb, hpb, hpbeq⟩
    have hkey : pb.1 ∈ (walk fs []).map (fun x => x.1) :=
      List.mem_map_of_mem _ hpb
    rcases walk_comps fs [] pb.1 hWf hkey with ⟨s, hseq, hsne, hscomp⟩
    rw [List.nil_append] at hseq
    have hcompwf : ∀ c ∈ pb.1, wfName c = true := by
      rw [hseq]
      exact hscomp
    have hslash : ∀ c ∈ pb.1, '/' ∉ c := fun c hc => (wfName_spec (hcompwf c hc)).2.1
    have hascii : ∀ c ∈ pb.1, asciiStr c = true :=
      fun c hc => (wfName_spec (hcompwf c hc)).2.2
    have hkeyne : pb.1 ≠ [] := by
      rw [hseq]
      exact hsne
    have hkl := hKeyLen e he
    rw [← hpbeq] at hkl ⊢
    refine ⟨hkeyne, hslash, joinComps_ascii hascii, hkl, hashFile_ascii pb.2, ?_⟩
    rw [hashFile_length]
    decide
  rw [serializeRecord, deserializeRecord]
  simp only [decodeLE8_encodeLE8 hLen]
  have h2 : decodeEntries m.length
      ((m.map (fun e => encodeStr (joinComps e.1) ++ encodeStr e.2)).flatten) =
      some (m, []) := by
    have h3 := decodeEntries_encode m [] hwfent
    rwa [List.append_nil] at h3
  simp only [h2]
  rw [insertAll_sorted_eq (by simpa using hsorted)]
  rfl

/-- Witness for C2: the snapshot of the concrete tree round-trips through
the byte stream unchanged. -/
theorem record_save_load_roundtrip_witness :
    deserializeRecord (serializeRecord (insertAll [] (entriesOf (walk fsW [])))) =
      some (insertAll [] (entriesOf (walk fsW []))) :=
  record_save_load_roundtrip fsW _ rfl (by decide)
    (recordHashes_ok fsW [] [] rfl) (by decide) (by decide)

/-- C9: whatever record file loads successfully, `list` prints exactly one
line per stored pair, in the stored iteration order, and that order is
strictly path-sorted. -/
theorem list_output_sorted (bs : Bytes) (m : RecMap)
    (h : deserializeRecord bs = some m) :
    listLines m = m.map renderLine ∧
    List.Pairwise (fun a b => pathLt a.1 b.1 = true) m := by
  refine ⟨rfl, ?_⟩
  rw [deserializeRecord] at h
  cases h1 : decodeLE 8 bs with
  | none => rw [h1] at h; cases h
  | some nr =>
    simp only [h1] at h
    cases h2 : decodeEntries nr.1 nr.2 with
    | none => simp only [h2] at h; cases h
    | some esr =>
      simp only [h2] at h
      have hm : insertAll [] esr.1 = m := Option.some.inj h
      rw [← hm]
      exact sorted_insertAll List.Pairwise.nil

/-- Witness for C9 at the concrete two-key record serialized and loaded
back. -/
theorem list_output_sorted_witness :
    listLines mTwo = mTwo.map renderLine ∧
    List.Pairwise (fun a b => pathLt a.1 b.1 = true) mTwo :=
  list_output_sorted (serializeRecord mTwo) mTwo (by decide)


end Dircmp
